import Mathlib

/-!
Verification of the Aura personal knowledge assistant.

This file gives a shallow embedding of the hybrid knowledge store
(`aura_brain.py`: the `AuraBrain` class over a NetworkX directed graph and
a FAISS id-mapped index), of the plan-execute-respond state machine
(`supervisor.py`), and of the external-lookup tool boundaries
(`aura_agent.py`), and proves or refutes the specified properties.

External capabilities (the embedding provider, HTTP lookups, the clock)
are modelled as explicit oracle arguments: an embedding lookup yields
`Option Vec` (`none` is the provider failure that `get_embedding` turns
into Python `None`), and HTTP calls yield `Except Unit` payloads (`.error`
is a raised request exception).
-/

/-- Embedding vectors are opaque payloads; only identity matters here. -/
abbrev Vec := List Int

/-- Attribute record of a graph node (`add_node` stores `content`, `type`
and a `timestamp`; extra kwargs are not used by any claimed property). -/
structure NodeData where
  content : String
  ntype : String
  timestamp : String
deriving Repr, DecidableEq

/-- A NetworkX `DiGraph` as used by `AuraBrain`: nodes in insertion order
with their data, and directed labelled edges in insertion order.  A
`DiGraph` keeps at most one edge per ordered pair; `add_edge` on an
existing pair updates its attributes in place. -/
structure Graph where
  nodes : List (Nat × NodeData)
  edges : List (Nat × Nat × String)
deriving Repr, DecidableEq

/-- The empty `nx.DiGraph()`. -/
def Graph.empty : Graph := ⟨[], []⟩

/-- Membership test `graph.has_node(i)`. -/
def Graph.hasNode (g : Graph) (i : Nat) : Bool :=
  g.nodes.any (fun p => p.1 == i)

/-- Node-data lookup `graph.nodes[i]`. -/
def Graph.getNodeData (g : Graph) (i : Nat) : Option NodeData :=
  (g.nodes.find? (fun p => p.1 == i)).map (fun p => p.2)

/-- `graph.add_node(i, ...)`: NetworkX updates the data of an existing
node, otherwise appends the node. -/
def Graph.addNode (g : Graph) (i : Nat) (d : NodeData) : Graph :=
  if g.nodes.any (fun p => p.1 == i) then
    { g with nodes := g.nodes.map (fun p => if p.1 == i then (i, d) else p) }
  else
    { g with nodes := g.nodes ++ [(i, d)] }

/-- `graph.add_edge(s, t, label=r)`: a `DiGraph` holds one edge per
ordered pair, so an existing `(s, t)` edge gets its label replaced and a
new pair is appended. -/
def Graph.addEdge (g : Graph) (s t : Nat) (r : String) : Graph :=
  if g.edges.any (fun e => e.1 == s && e.2.1 == t) then
    { g with edges := g.edges.map (fun e => if e.1 == s && e.2.1 == t then (s, t, r) else e) }
  else
    { g with edges := g.edges ++ [(s, t, r)] }

/-- Predecessor list of a node (sources of its inbound edges). -/
def Graph.preds (g : Graph) (i : Nat) : List Nat :=
  (g.edges.filter (fun e => e.2.1 == i)).map (fun e => e.1)

/-- Successor list of a node (targets of its outbound edges). -/
def Graph.succs (g : Graph) (i : Nat) : List Nat :=
  (g.edges.filter (fun e => e.1 == i)).map (fun e => e.2.1)

/-- `graph.get_edge_data(s, t)` restricted to the `label` attribute. -/
def Graph.edgeLabel (g : Graph) (s t : Nat) : Option String :=
  (g.edges.find? (fun e => e.1 == s && e.2.1 == t)).map (fun e => e.2.2)

/-- The FAISS `IndexIDMap` contents: `(node_id, vector)` entries in the
order they were added with `add_with_ids`. -/
abbrev Index := List (Nat × Vec)

/-- Whether the index holds a vector entry for id `i`. -/
def indexHas (idx : Index) (i : Nat) : Bool :=
  idx.any (fun p => p.1 == i)

/-- In-memory state of an `AuraBrain`: the factual graph, the vector
index, and the `next_node_id` counter. -/
structure Brain where
  graph : Graph
  index : Index
  next : Nat
deriving Repr, DecidableEq

/-- A fresh brain: empty graph, empty index, `next_node_id = 0`
(the `__init__` path where neither file exists). -/
def emptyBrain : Brain := ⟨Graph.empty, [], 0⟩

/-- `AuraBrain.add_node(content, node_type)`.  The embedding oracle result
for `content` is the explicit argument `emb` (`none` models
`get_embedding` returning `None`); `ts` is the wall-clock timestamp.
On embedding failure the method returns `None` before touching any state;
on success it adds the node, adds the vector under the same id, bumps
`next_node_id` and returns the id. -/
def addNode (b : Brain) (emb : Option Vec) (content ntype ts : String) :
    Option Nat × Brain :=
  match emb with
  | none => (none, b)
  | some v =>
    let nid := b.next
    (some nid,
      { graph := b.graph.addNode nid ⟨content, ntype, ts⟩
        index := b.index ++ [(nid, v)]
        next := b.next + 1 })

/-- `AuraBrain.get_node_by_content`: linear scan for an exact content
match, first hit wins. -/
def getNodeByContent (b : Brain) (content : String) : Option Nat :=
  (b.graph.nodes.find? (fun p => p.2.content == content)).map (fun p => p.1)

/-- `AuraBrain.find_or_create_node`: return the id of an existing node
with this exact content, otherwise defer to `add_node`. -/
def findOrCreateNode (b : Brain) (emb : Option Vec) (content ntype ts : String) :
    Option Nat × Brain :=
  match getNodeByContent b content with
  | some nid => (some nid, b)
  | none => addNode b emb content ntype ts

/-- `AuraBrain.add_edge`: insert the labelled edge only when both
endpoints exist, otherwise log a warning and change nothing.  The method
body is a plain conditional, so it never raises. -/
def addEdgeB (b : Brain) (s t : Nat) (r : String) : Brain :=
  if b.graph.hasNode s && b.graph.hasNode t then
    { b with graph := b.graph.addEdge s t r }
  else b

/-- `nx.convert_node_labels_to_integers`: relabel the nodes to
`0, 1, ...` in iteration order; edge endpoints are remapped through the
position of their old label in the node list.  (`__init__` applies this
right after `nx.read_gml`, whose default relabelling turns node ids into
strings.) -/
def Graph.relabel (g : Graph) : Graph :=
  let ids := g.nodes.map Prod.fst
  { nodes := g.nodes.enum.map (fun p => (p.1, p.2.2))
    edges := g.edges.map (fun e => (ids.indexOf e.1, ids.indexOf e.2.1, e.2.2)) }

/-- On-disk state: `aura_graph.gml` and `aura_index.faiss`, each either
absent or holding a faithfully serialized snapshot. -/
structure Disk where
  graphFile : Option Graph
  indexFile : Option Index
deriving Repr, DecidableEq

/-- `AuraBrain.save()`: `write_gml` then `write_index` inside one
`try/except` that only logs.  `gOk` is whether the graph write succeeds;
`iOk` whether the subsequent index write succeeds (a graph-write failure
skips the index write, and no failure propagates to the caller). -/
def saveBrain (gOk iOk : Bool) (b : Brain) (d : Disk) : Disk :=
  if gOk then
    { graphFile := some b.graph
      indexFile := if iOk then some b.index else d.indexFile }
  else d

/-- `AuraBrain._rebuild_index_from_graph`, driven by the embedding oracle
`embed`: every node whose content re-embeds successfully contributes its
`(id, vector)` entry (one `add_with_ids` batch, in node order); a node
whose embedding comes back falsy is silently skipped. -/
def rebuildIndexFromGraph (embed : String → Option Vec) (g : Graph) : Index :=
  g.nodes.filterMap (fun p => (embed p.2.content).map (fun v => (p.1, v)))

/-- The load path of `AuraBrain.__init__` against disk state `d`:
read and relabel the graph file (or start empty), recompute
`next_node_id` as `max(nodes) + 1` (`0` when empty), then read the index
file as-is when it exists; only when the index file is absent and the
loaded graph is non-empty is the index rebuilt from the graph. -/
def loadBrain (embed : String → Option Vec) (d : Disk) : Brain :=
  let g : Graph :=
    match d.graphFile with
    | some g0 => g0.relabel
    | none => Graph.empty
  let nxt : Nat :=
    if g.nodes.isEmpty then 0 else ((g.nodes.map Prod.fst).foldl Nat.max 0) + 1
  let idx : Index :=
    match d.indexFile with
    | some i => i
    | none => if 0 < g.nodes.length then rebuildIndexFromGraph embed g else []
  ⟨g, idx, nxt⟩

/-- One store-level operation, as issued by clients of `AuraBrain`; the
oracle outcomes (embedding results, write success, re-embedding function)
travel with the operation.  `loseIndex` models the index blob going
missing on disk (the "partial data loss" precondition of the rebuild
path); `load` models constructing a fresh `AuraBrain` over the same
files. -/
inductive StoreOp where
  | add (emb : Option Vec) (content ntype ts : String)
  | foc (emb : Option Vec) (content ntype ts : String)
  | edge (s t : Nat) (r : String)
  | save (gOk iOk : Bool)
  | loseIndex
  | load (embed : String → Option Vec)

/-- A brain together with its two backing files. -/
structure Sys where
  brain : Brain
  disk : Disk

/-- Fresh process state: empty brain, no files on disk. -/
def initSys : Sys := ⟨emptyBrain, ⟨none, none⟩⟩

/-- Apply one store-level operation. -/
def applyOp (s : Sys) : StoreOp → Sys
  | .add e c t ts => { s with brain := (addNode s.brain e c t ts).2 }
  | .foc e c t ts => { s with brain := (findOrCreateNode s.brain e c t ts).2 }
  | .edge a b r => { s with brain := addEdgeB s.brain a b r }
  | .save gOk iOk => { s with disk := saveBrain gOk iOk s.brain s.disk }
  | .loseIndex => { s with disk := { s.disk with indexFile := none } }
  | .load embed => { s with brain := loadBrain embed s.disk }

/-- Run a sequence of store-level operations from a fresh process. -/
def runOps (ops : List StoreOp) : Sys := ops.foldl applyOp initSys

/-- Insert an element into a list sorted by `key`, keeping earlier
elements first on ties (stable). -/
def insertByKey {α : Type} (key : α → Nat) (x : α) : List α → List α
  | [] => [x]
  | y :: ys => if key x ≤ key y then x :: y :: ys else y :: insertByKey key x ys

/-- Stable insertion sort by `key`. -/
def sortByKey {α : Type} (key : α → Nat) : List α → List α
  | [] => []
  | x :: xs => insertByKey key x (sortByKey key xs)

/-- `self.index.search(q, k)` for a FAISS `IndexIDMap`: the stored ids
ordered by the reported distance of their vector to the query (`d` is the
distance oracle, covering the approximation of HNSW), truncated to `k`,
and padded with the sentinel label `-1` up to exactly `k` slots when the
index holds fewer than `k` vectors. -/
def faissSearch (d : Vec → Nat) (idx : Index) (k : Nat) : List Int :=
  let sorted := sortByKey (fun e => d e.2) idx
  ((sorted.take k).map (fun e => Int.ofNat e.1)) ++
    List.replicate (k - idx.length) (-1)

/-- `graph.has_node` applied to a raw FAISS label: `-1` is never a node. -/
def Graph.hasNodeI (g : Graph) (i : Int) : Bool :=
  decide (0 ≤ i) && g.hasNode i.toNat

/-- One entry of a seed's neighborhood, as assembled by `hybrid_search`. -/
structure NeighborInfo where
  id : Nat
  content : String
  ntype : String
  relationship : String
deriving Repr, DecidableEq

/-- One value of the `hybrid_search` results dict. -/
structure SeedResult where
  content : String
  ntype : String
  neighborhood : List NeighborInfo
deriving Repr, DecidableEq

/-- The neighborhood loop of `hybrid_search`: `nx.all_neighbors` yields
the predecessors then the successors of the seed, and each neighbor is
annotated with the label of the outgoing edge if present, else of the
incoming one. -/
def neighborhoodOf (g : Graph) (i : Nat) : List NeighborInfo :=
  (g.preds i ++ g.succs i).map (fun nb =>
    let nd := (g.getNodeData nb).getD ⟨"", "", ""⟩
    let rel := ((g.edgeLabel i nb).orElse (fun _ => g.edgeLabel nb i)).getD ""
    ⟨nb, nd.content, nd.ntype, rel⟩)

/-- The per-seed record stored under `results[node_id]`. -/
def seedResultOf (g : Graph) (i : Nat) : SeedResult :=
  let nd := (g.getNodeData i).getD ⟨"", "", ""⟩
  ⟨nd.content, nd.ntype, neighborhoodOf g i⟩

/-- Python dict assignment `m[k] = v`: overwrite in place when the key is
present, else append (dicts preserve insertion order). -/
def dictInsert {β : Type} (m : List (Nat × β)) (k : Nat) (v : β) : List (Nat × β) :=
  if m.any (fun p => p.1 == k) then
    m.map (fun p => if p.1 == k then (k, v) else p)
  else m ++ [(k, v)]

/-- `AuraBrain.hybrid_search(query_text, k)`.  The query embedding oracle
result is `qemb`; `d q` reports each stored vector's distance to the
query.  On embedding failure return `{}`; otherwise take the `k` FAISS
labels, keep those that resolve to graph nodes, and record each seed with
its full neighborhood. -/
def hybridSearch (d : Vec → Vec → Nat) (b : Brain) (qemb : Option Vec) (k : Nat) :
    List (Nat × SeedResult) :=
  match qemb with
  | none => []
  | some q =>
    let ids := faissSearch (d q) b.index k
    if ids.length == 0 then []
    else
      ids.foldl (fun res i =>
        if b.graph.hasNodeI i then
          dictInsert res i.toNat (seedResultOf b.graph i.toNat)
        else res) []

/-- One entry of the LangGraph plan: a tool name and its argument payload
(threaded opaquely to the tool). -/
structure PlanStep where
  tool : String
  arg : String
deriving Repr, DecidableEq

/-- The `ToolMessage` appended to `past_steps` after a step executes. -/
structure ToolMsg where
  content : String
  name : String
deriving Repr, DecidableEq

/-- The part of the LangGraph `AgentState` driving EXECUTING: the
remaining plan and the accumulated history (`past_steps` uses the
`add_messages` reducer, so node returns append to it). -/
structure ExecState where
  plan : List PlanStep
  pastSteps : List ToolMsg
deriving Repr, DecidableEq

/-- `execution_node`: with an empty plan return `past_steps: []` (which
appends nothing); otherwise pop the first step, invoke its tool
synchronously (`runTool` is the dispatch through `all_tools`), and append
one `ToolMessage` carrying the result and the tool name. -/
def executionNode (runTool : PlanStep → String) (st : ExecState) : ExecState :=
  match st.plan with
  | [] => st
  | step :: rest => ⟨rest, st.pastSteps ++ [⟨runTool step, step.tool⟩]⟩

/-- The two conditional-edge targets out of the executor node. -/
inductive Route where
  | execute
  | respond
deriving Repr, DecidableEq

/-- `should_continue`: loop back to the executor while the plan is
non-empty, otherwise hand over to the responder. -/
def shouldContinue (st : ExecState) : Route :=
  if 0 < st.plan.length then Route.execute else Route.respond

/-- The executor loop as wired in the graph: at each round consult
`should_continue`; on `execute` run `execution_node` and continue, on
`respond` stop (control passes to the responder).  `fuel` bounds the
rounds; `st.plan.length` rounds always suffice. -/
def execRounds (runTool : PlanStep → String) : Nat → ExecState → ExecState
  | 0, st => st
  | fuel + 1, st =>
    match shouldContinue st with
    | Route.respond => st
    | Route.execute => execRounds runTool fuel (executionNode runTool st)

/-- Outcome of a Wikipedia lookup inside `AuraAgent.external_search`:
either a page object (with its existence flag and summary) or a raised
exception. -/
inductive WikiOutcome where
  | page (found : Bool) (summary : String)
  | raised (msg : String)
deriving Repr, DecidableEq

/-- The apology literal of `external_search`'s `except` branch. -/
def searchApology : String := "Sorry, I had trouble searching online right now."

/-- `AuraAgent.external_search(query)` given the lookup outcome `w`: a
found page yields its truncated summary, a missing page a not-found
message, and any raised exception is caught and converted to the apology
string.  The function is total: no outcome escapes as an exception. -/
def externalSearch (query : String) (w : WikiOutcome) : String :=
  match w with
  | .page true s =>
      "Wikipedia summary for '" ++ query ++ "':\n" ++ (s.take 500) ++ "..."
  | .page false _ =>
      "Could not find a Wikipedia page for '" ++ query ++ "'."
  | .raised _ => searchApology

/-- `AuraAgent._get_qloo_entity_id`, with the HTTP outcome explicit: no
API key or a raised `RequestException` yields `None` (the exception is
caught and logged); otherwise the first result's `entity_id` field. -/
def getQlooEntityId (apiKey : Option String)
    (resp : Except Unit (List (Option String))) : Option String :=
  match apiKey with
  | none => none
  | some _ =>
    match resp with
    | .error _ => none
    | .ok results =>
      match results with
      | [] => none
      | r :: _ => r

/-- The fixed fan-out categories of `_enrich_node_with_qloo`. -/
def qlooOutputTypes : List String := ["place", "book", "music"]

/-- `AuraAgent._enrich_node_with_qloo`, oracles explicit: `searchResp` is
the entity-search HTTP outcome, `insights ot` the insights HTTP outcome
per output type, `embed`/`ts` feed the nested `find_or_create_node`
calls.  A failed entity search aborts silently; a raised insights request
for one output type is caught and skipped.  The Python method returns
`None` on every path, so the returned message component is always
`none` — enrichment failures produce no apology text. -/
def enrichNodeWithQloo (embed : String → Option Vec) (ts : String)
    (apiKey : Option String) (searchResp : Except Unit (List (Option String)))
    (insights : String → Except Unit (List (Option String)))
    (b : Brain) (nodeId : Nat) : Brain × Option String :=
  match getQlooEntityId apiKey searchResp with
  | none => (b, none)
  | some _ =>
    (qlooOutputTypes.foldl (fun acc ot =>
      match insights ot with
      | .error _ => acc
      | .ok recs =>
        recs.foldl (fun acc2 rec =>
          match rec with
          | none => acc2
          | some nm =>
            let r := findOrCreateNode acc2 (embed nm) nm ot.capitalize ts
            match r.1 with
            | none => r.2
            | some tid => addEdgeB r.2 nodeId tid ("RECOMMENDS_" ++ ot.toUpper)) acc) b,
     none)

/-- What a supervisor tool invocation produces: a string result, or an
uncaught Python exception escaping into the executor. -/
inductive ToolOutcome where
  | ok (s : String)
  | exn (name : String)
deriving Repr, DecidableEq

/-- The public and private methods `class AuraAgent` defines
(`aura_agent.py`). -/
def auraAgentMethods : List String :=
  ["__init__", "update_knowledge_base", "query_knowledge_base", "external_search",
   "_extract_graph_from_text", "_get_qloo_entity_id", "_enrich_node_with_qloo"]

/-- The `qloo_enrichment` registry entry (`supervisor.py`): its body is
`memory_agent.qloo_enrichment(entity_name, entity_type)`.  Python
resolves the attribute against `AuraAgent`'s method table; since no such
method exists, the call raises `AttributeError` before any external
lookup can happen. -/
def qlooEnrichmentTool (entityName entityType : String) : ToolOutcome :=
  if auraAgentMethods.contains "qloo_enrichment" then
    ToolOutcome.ok (entityName ++ " " ++ entityType)
  else ToolOutcome.exn "AttributeError"

/-- A client-issued sequence of bare `add_node` calls: each call carries
its embedding-oracle outcome, content, type and timestamp. -/
def runAdds (calls : List (Option Vec × String × String × String)) (b : Brain) : Brain :=
  calls.foldl (fun acc c => (addNode acc c.1 c.2.1 c.2.2.1 c.2.2.2).2) b

/-- A concrete two-node store used to instantiate theorems: nodes `0`
(content "a") and `1` (content "b"), no edges. -/
def twoNodeBrain : Brain :=
  (addNode (addNode emptyBrain (some [1]) "a" "T" "t0").2 (some [2]) "b" "T" "t1").2

/-- A degenerate distance oracle (all distances equal). -/
def dZero : Vec → Vec → Nat := fun _ _ => 0


/-- A brain allocated ids `0, ..., n-1` in order: the graph's node ids,
the index's vector ids, and the `next_node_id` counter all agree on `n`. -/
def ContigState (b : Brain) (n : Nat) : Prop :=
  b.graph.nodes.map Prod.fst = List.range n ∧
  b.index.map Prod.fst = List.range n ∧
  b.next = n

theorem contigState_nodes_length {b : Brain} {n : Nat} (h : ContigState b n) :
    b.graph.nodes.length = n := by
  have := congrArg List.length h.1
  simpa using this

theorem any_fst_eq {α : Type} (l : List (Nat × α)) (i : Nat) :
    l.any (fun p => p.1 == i) = (l.map Prod.fst).any (fun x => x == i) := by
  induction l with
  | nil => rfl
  | cons p rest ih => simp [ih]

theorem not_any_fst_eq_of_map_range {α : Type} {l : List (Nat × α)} {n : Nat}
    (h : l.map Prod.fst = List.range n) : l.any (fun p => p.1 == n) = false := by
  rw [List.any_eq_false]
  intro p hp
  have hmem : p.1 ∈ List.range n := by
    rw [← h]
    exact List.mem_map_of_mem Prod.fst hp
  have hlt : p.1 < n := List.mem_range.mp hmem
  simp [Nat.ne_of_lt hlt]

theorem contig_addNode {b : Brain} {n : Nat} (h : ContigState b n)
    (v : Vec) (c t ts : String) :
    (addNode b (some v) c t ts).1 = some n ∧
    ContigState (addNode b (some v) c t ts).2 (n + 1) := by
  obtain ⟨hg, hi, hn⟩ := h
  have hfresh : b.graph.nodes.any (fun p => p.1 == b.next) = false := by
    rw [hn]
    exact not_any_fst_eq_of_map_range hg
  refine ⟨by simp [addNode, hn], ?_, ?_, ?_⟩
  · show ((b.graph.addNode b.next ⟨c, t, ts⟩).nodes.map Prod.fst) = List.range (n + 1)
    rw [Graph.addNode, if_neg (by simp [hfresh])]
    simp [hg, hn, List.range_succ]
  · show ((b.index ++ [(b.next, v)]).map Prod.fst) = List.range (n + 1)
    simp [hi, hn, List.range_succ]
  · show b.next + 1 = n + 1
    omega

theorem runAdds_contig (calls : List (Option Vec × String × String × String)) :
    ∀ (b : Brain) (n : Nat), ContigState b n →
      ContigState (runAdds calls b) (n + calls.countP (fun c => c.1.isSome)) := by
  induction calls with
  | nil =>
    intro b n h
    simpa [runAdds] using h
  | cons c rest ih =>
    intro b n h
    have hstep : runAdds (c :: rest) b = runAdds rest (addNode b c.1 c.2.1 c.2.2.1 c.2.2.2).2 := rfl
    rw [hstep]
    cases hc : c.1 with
    | none =>
      have : (addNode b none c.2.1 c.2.2.1 c.2.2.2).2 = b := rfl
      rw [this]
      have := ih b n h
      simpa [List.countP_cons, hc] using this
    | some v =>
      have hnext := (contig_addNode h v c.2.1 c.2.2.1 c.2.2.2).2
      have := ih _ _ hnext
      have harith : n + 1 + rest.countP (fun c => c.1.isSome)
          = n + (c :: rest).countP (fun c => c.1.isSome) := by
        simp [List.countP_cons, hc]
        omega
      rwa [harith] at this

/-- Claim C1: an `add_node` call whose embedding lookup fails returns `None`
and leaves the brain byte-for-byte unchanged (no graph node, no vector
entry, no id-counter bump), and after any sequence of `add_node` calls
from an empty store the allocated node ids — in the graph and in the
index alike — are exactly `0, ..., n-1` for `n` the number of successful
creations, which also equals the final `next_node_id`. -/
theorem addNode_failure_consumes_nothing_ids_exact :
    (∀ (b : Brain) (c t ts : String), addNode b none c t ts = (none, b)) ∧
    (∀ calls : List (Option Vec × String × String × String),
      (runAdds calls emptyBrain).graph.nodes.map Prod.fst
          = List.range (calls.countP (fun c => c.1.isSome)) ∧
      (runAdds calls emptyBrain).index.map Prod.fst
          = List.range (calls.countP (fun c => c.1.isSome)) ∧
      (runAdds calls emptyBrain).next = calls.countP (fun c => c.1.isSome)) := by
  refine ⟨fun b c t ts => rfl, fun calls => ?_⟩
  have hempty : ContigState emptyBrain 0 := by
    refine ⟨rfl, rfl, rfl⟩
  have := runAdds_contig calls emptyBrain 0 hempty
  simpa using this

theorem enumFrom_proj : ∀ (n : Nat) (l : List (Nat × NodeData)),
    l.map Prod.fst = List.range' n l.length →
    (List.enumFrom n l).map (fun p => (p.1, p.2.2)) = l := by
  intro n l
  induction l generalizing n with
  | nil => simp
  | cons x rest ih =>
    intro h
    rw [List.length_cons, List.range'_succ] at h
    have hx : x.1 = n := by
      have := congrArg (fun l => l.headD 0) h
      simpa using this
    have ht : rest.map Prod.fst = List.range' (n + 1) rest.length := by
      have := congrArg List.tail h
      simpa using this
    have hxx : x = (n, x.2) := by
      rw [← hx]
    calc (List.enumFrom n (x :: rest)).map (fun p => (p.1, p.2.2))
        = (n, x.2) :: (List.enumFrom (n + 1) rest).map (fun p => (p.1, p.2.2)) := rfl
      _ = (n, x.2) :: rest := by rw [ih (n + 1) ht]
      _ = x :: rest := by rw [← hxx]

theorem relabel_nodes_of_contig {g : Graph}
    (h : g.nodes.map Prod.fst = List.range g.nodes.length) :
    (Graph.relabel g).nodes = g.nodes := by
  show (List.enumFrom 0 g.nodes).map (fun p => (p.1, p.2.2)) = g.nodes
  apply enumFrom_proj
  rw [h, List.range_eq_range']

theorem relabel_nodes_length (g : Graph) :
    (Graph.relabel g).nodes.length = g.nodes.length := by
  simp [Graph.relabel]

theorem relabel_edges_length (g : Graph) :
    (Graph.relabel g).edges.length = g.edges.length := by
  simp [Graph.relabel]

theorem foldl_max_range : ∀ n : Nat, (List.range (n + 1)).foldl Nat.max 0 = n := by
  intro n
  induction n with
  | zero => rfl
  | succ k ih =>
    rw [List.range_succ, List.foldl_append]
    simp [ih, Nat.max_eq_right (Nat.le_succ k)]

theorem rebuild_map_fst (embed : String → Option Vec) :
    ∀ l : List (Nat × NodeData),
      (∀ p ∈ l, (embed p.2.content).isSome = true) →
      (l.filterMap (fun p => (embed p.2.content).map (fun v => (p.1, v)))).map Prod.fst
        = l.map Prod.fst := by
  intro l
  induction l with
  | nil => intro _; rfl
  | cons p rest ih =>
    intro h
    obtain ⟨v, hv⟩ := Option.isSome_iff_exists.mp (h p (by simp))
    have hrest := ih (fun q hq => h q (by simp [hq]))
    simp [List.filterMap_cons, hv, hrest]

/-- Invariant of an in-memory brain the code can actually produce:
contiguously allocated ids shared by graph, index and counter. -/
def BrainInv (b : Brain) : Prop := ContigState b b.graph.nodes.length

/-- Invariant of the backing files: an existing graph snapshot has
contiguous ids, an index blob only exists alongside a graph snapshot, and
when both exist they carry the same id range. -/
def DiskInv (d : Disk) : Prop :=
  match d.graphFile with
  | none => d.indexFile = none
  | some g =>
      g.nodes.map Prod.fst = List.range g.nodes.length ∧
      ∀ i, d.indexFile = some i → i.map Prod.fst = List.range g.nodes.length

/-- Combined invariant of brain plus disk. -/
def SysInv (s : Sys) : Prop := BrainInv s.brain ∧ DiskInv s.disk

/-- States reachable from a fresh process by well-behaved runs: any
store operations, saves whose two writes both succeed, loss of the index
blob, and loads that — whenever they have to rebuild the index from an
existing graph snapshot because the blob is absent — re-embed every node
successfully. -/
inductive GoodReach : Sys → Prop where
  | init : GoodReach initSys
  | add (s : Sys) (e : Option Vec) (c t ts : String) (h : GoodReach s) :
      GoodReach (applyOp s (.add e c t ts))
  | foc (s : Sys) (e : Option Vec) (c t ts : String) (h : GoodReach s) :
      GoodReach (applyOp s (.foc e c t ts))
  | edge (s : Sys) (a b : Nat) (r : String) (h : GoodReach s) :
      GoodReach (applyOp s (.edge a b r))
  | save (s : Sys) (h : GoodReach s) : GoodReach (applyOp s (.save true true))
  | loseIndex (s : Sys) (h : GoodReach s) : GoodReach (applyOp s .loseIndex)
  | load (s : Sys) (embed : String → Option Vec) (h : GoodReach s)
      (hemb : match s.disk.graphFile, s.disk.indexFile with
        | some g, none => ∀ p ∈ g.nodes, (embed p.2.content).isSome = true
        | _, _ => True) :
      GoodReach (applyOp s (.load embed))

theorem brainInv_addNode {b : Brain} (h : BrainInv b) (e : Option Vec) (c t ts : String) :
    BrainInv (addNode b e c t ts).2 := by
  cases e with
  | none => exact h
  | some v =>
    have hstep := (contig_addNode h v c t ts).2
    have hlen : (addNode b (some v) c t ts).2.graph.nodes.length
        = b.graph.nodes.length + 1 := contigState_nodes_length hstep
    rw [BrainInv, hlen]
    exact hstep

theorem brainInv_foc {b : Brain} (h : BrainInv b) (e : Option Vec) (c t ts : String) :
    BrainInv (findOrCreateNode b e c t ts).2 := by
  rw [findOrCreateNode]
  cases getNodeByContent b c with
  | none => exact brainInv_addNode h e c t ts
  | some nid => exact h

theorem addEdgeB_components (b : Brain) (s t : Nat) (r : String) :
    (addEdgeB b s t r).graph.nodes = b.graph.nodes ∧
    (addEdgeB b s t r).index = b.index ∧
    (addEdgeB b s t r).next = b.next := by
  rw [addEdgeB]
  split
  · rw [Graph.addEdge]
    split <;> exact ⟨rfl, rfl, rfl⟩
  · exact ⟨rfl, rfl, rfl⟩

theorem brainInv_addEdge {b : Brain} (h : BrainInv b) (s t : Nat) (r : String) :
    BrainInv (addEdgeB b s t r) := by
  obtain ⟨hn, hi, hx⟩ := addEdgeB_components b s t r
  rw [BrainInv, ContigState, hn, hi, hx]
  exact h

theorem brainInv_load {d : Disk} (hd : DiskInv d) (embed : String → Option Vec)
    (hemb : match d.graphFile, d.indexFile with
      | some g, none => ∀ p ∈ g.nodes, (embed p.2.content).isSome = true
      | _, _ => True) :
    BrainInv (loadBrain embed d) := by
  cases hg : d.graphFile with
  | none =>
    rw [DiskInv, hg] at hd
    rw [loadBrain, hg, hd]
    exact ⟨rfl, rfl, rfl⟩
  | some g =>
    rw [DiskInv, hg] at hd
    obtain ⟨hcontig, hidx⟩ := hd
    have hrel : (Graph.relabel g).nodes = g.nodes := relabel_nodes_of_contig hcontig
    rw [loadBrain, hg]
    cases hi : d.indexFile with
    | some i =>
      have hi' := hidx i hi
      cases hL : g.nodes with
      | nil =>
        have hnil : (Graph.relabel g).nodes = [] := by rw [hrel, hL]
        refine ⟨?_, ?_, ?_⟩
        · rw [hnil]; rfl
        · rw [hnil]
          simpa [hL] using hi'
        · simp [hnil]
      | cons p rest =>
        have hne : (Graph.relabel g).nodes.isEmpty = false := by
          rw [hrel, hL]; rfl
        have hfold : ((Graph.relabel g).nodes.map Prod.fst).foldl Nat.max 0 + 1
            = (Graph.relabel g).nodes.length := by
          rw [hrel, hcontig, hL]
          simp only [List.length_cons]
          rw [foldl_max_range]
        refine ⟨?_, ?_, ?_⟩
        · rw [hrel, hcontig]
        · rw [hrel]
          simpa [hrel] using hi'
        · simp only [hne, Bool.false_eq_true, if_false]
          rw [hfold]
    | none =>
      rw [hg, hi] at hemb
      have hemb' : ∀ p ∈ (Graph.relabel g).nodes, (embed p.2.content).isSome = true := by
        rw [hrel]; exact hemb
      cases hL : g.nodes with
      | nil =>
        have hnil : (Graph.relabel g).nodes = [] := by rw [hrel, hL]
        refine ⟨?_, ?_, ?_⟩ <;> simp [hnil]
      | cons p rest =>
        have hne : (Graph.relabel g).nodes.isEmpty = false := by
          rw [hrel, hL]; rfl
        have hlenpos : 0 < (Graph.relabel g).nodes.length := by
          rw [hrel, hL]; simp
        have hreb : (rebuildIndexFromGraph embed (Graph.relabel g)).map Prod.fst
            = (Graph.relabel g).nodes.map Prod.fst :=
          rebuild_map_fst embed _ hemb'
        have hfold : ((Graph.relabel g).nodes.map Prod.fst).foldl Nat.max 0 + 1
            = (Graph.relabel g).nodes.length := by
          rw [hrel, hcontig, hL]
          simp only [List.length_cons]
          rw [foldl_max_range]
        refine ⟨?_, ?_, ?_⟩
        · rw [hrel, hcontig]
        · rw [if_pos hlenpos, hreb, hrel, hcontig]
        · simp only [hne, Bool.false_eq_true, if_false]
          rw [hfold]

theorem goodReach_sysInv {s : Sys} (h : GoodReach s) : SysInv s := by
  induction h with
  | init =>
    exact ⟨⟨rfl, rfl, rfl⟩, rfl⟩
  | add s e c t ts _ ih => exact ⟨brainInv_addNode ih.1 e c t ts, ih.2⟩
  | foc s e c t ts _ ih => exact ⟨brainInv_foc ih.1 e c t ts, ih.2⟩
  | edge s a b r _ ih => exact ⟨brainInv_addEdge ih.1 a b r, ih.2⟩
  | save s _ ih =>
    refine ⟨ih.1, ?_⟩
    show DiskInv ⟨some s.brain.graph, some s.brain.index⟩
    rw [DiskInv]
    refine ⟨ih.1.1, ?_⟩
    intro i hi
    cases hi
    exact ih.1.2.1
  | loseIndex s _ ih =>
    refine ⟨ih.1, ?_⟩
    show DiskInv ⟨s.disk.graphFile, none⟩
    rw [DiskInv]
    cases hg : s.disk.graphFile with
    | none => rfl
    | some g =>
      have := ih.2
      rw [DiskInv, hg] at this
      exact ⟨this.1, fun i hi => by cases hi⟩
  | load s embed _ hemb ih =>
    exact ⟨brainInv_load ih.2 embed hemb, ih.2⟩

/-- Claim C2, refuted as stated.  Two runs of the code's own operations break
the vector-iff-node invariant.  First run: add a node, save (both writes
succeed), add a second node, save again but with the index write failing
(the exception is caught and only logged), then load: the reloaded graph
holds node `1` while the loaded — mismatched — index blob has no vector
for it, and no rebuild happens because the blob exists.  Second run: add
a node, save with the index write failing before an index file ever
existed, then load with the embedding provider down: the rebuild path
fires but silently skips the node, leaving a vector-less content node. -/
theorem vector_node_iff_fails_on_mismatched_or_failed_rebuild :
    ((runOps [.add (some [1]) "a" "T" "s0", .save true true,
              .add (some [2]) "b" "T" "s1", .save true false,
              .load (fun _ => some [9])]).brain.graph.hasNode 1 = true ∧
     indexHas (runOps [.add (some [1]) "a" "T" "s0", .save true true,
              .add (some [2]) "b" "T" "s1", .save true false,
              .load (fun _ => some [9])]).brain.index 1 = false) ∧
    ((runOps [.add (some [1]) "a" "T" "s0", .save true false,
              .load (fun _ => none)]).brain.graph.hasNode 0 = true ∧
     indexHas (runOps [.add (some [1]) "a" "T" "s0", .save true false,
              .load (fun _ => none)]).brain.index 0 = false) := by
  exact ⟨⟨rfl, rfl⟩, ⟨rfl, rfl⟩⟩

/-- Claim C2, amended: in every state reachable from a fresh process by
`add_node`, `find_or_create_node`, `add_edge`, fully successful `save`s,
loss of the index blob, and `load`s whose rebuild (triggered exactly when
the blob is absent and the graph snapshot is non-empty) re-embeds every
node successfully, a vector entry with id `i` exists in the index iff a
node with id `i` exists in the graph.  A present-but-mismatched blob is
loaded as-is without reconciliation, and a failed re-embedding leaves a
vector-less node, so those runs are excluded (see the counterexample). -/
theorem goodReach_vector_node_iff {s : Sys} (h : GoodReach s) (i : Nat) :
    indexHas s.brain.index i = s.brain.graph.hasNode i := by
  obtain ⟨hg, hi, -⟩ := (goodReach_sysInv h).1
  rw [indexHas, Graph.hasNode, any_fst_eq, any_fst_eq, hg, hi]

theorem goodReach_vector_node_iff_witness :
    indexHas (applyOp (applyOp (applyOp (applyOp initSys
        (.add (some [1]) "a" "T" "s0")) (.save true true)) .loseIndex)
        (.load (fun _ => some [2]))).brain.index 0
      = (applyOp (applyOp (applyOp (applyOp initSys
        (.add (some [1]) "a" "T" "s0")) (.save true true)) .loseIndex)
        (.load (fun _ => some [2]))).brain.graph.hasNode 0 := by
  exact goodReach_vector_node_iff
    (GoodReach.load _ (fun _ => some [2])
      (GoodReach.loseIndex _
        (GoodReach.save _
          (GoodReach.add _ _ _ _ _ GoodReach.init)))
      (fun p _ => rfl)) 0

theorem find?_append_none {α : Type} (p : α → Bool) (l2 : List α) :
    ∀ l1 : List α, l1.find? p = none → (l1 ++ l2).find? p = l2.find? p := by
  intro l1
  induction l1 with
  | nil => intro _; rfl
  | cons a rest ih =>
    intro h
    cases hpa : p a with
    | true =>
      rw [List.find?_cons_of_pos _ hpa] at h
      cases h
    | false =>
      have h' : rest.find? p = none := by
        rwa [List.find?_cons_of_neg _ (by simp [hpa])] at h
      rw [List.cons_append, List.find?_cons_of_neg _ (by simp [hpa])]
      exact ih h'

/-- Claim C3, refuted as stated.  First conjunct: on an empty store, a first
`find_or_create_node("c", ...)` whose embedding lookup fails returns
`None`, and an identical second call whose embedding succeeds returns id
`0` — the two calls do not return the same id.  Second conjunct: when a
node with content "c" already exists, two identical calls create zero
nodes in total, not exactly one. -/
theorem find_or_create_not_unconditionally_idempotent :
    ((findOrCreateNode emptyBrain none "c" "T" "s0").1
        ≠ (findOrCreateNode (findOrCreateNode emptyBrain none "c" "T" "s0").2
            (some [1]) "c" "T" "s1").1) ∧
    ((findOrCreateNode (findOrCreateNode
          (addNode emptyBrain (some [1]) "c" "T" "s0").2
          (some [2]) "c" "T" "s1").2
          (some [3]) "c" "T" "s2").2.graph.nodes.length
        = (addNode emptyBrain (some [1]) "c" "T" "s0").2.graph.nodes.length) := by
  exact ⟨by decide, by decide⟩

/-- Claim C3, amended: provided the store's id counter is fresh (`next_node_id`
is not an existing node id — true of every store the code builds) and
either the content is already present or the first call's embedding
lookup succeeds, two `find_or_create_node` calls with identical content
return the same defined id, and together they create exactly one node
when the content was absent and zero when it was already present. -/
theorem find_or_create_idempotent (b : Brain) (e1 e2 : Option Vec) (c t ts1 ts2 : String)
    (hfresh : b.graph.hasNode b.next = false)
    (h : (getNodeByContent b c).isSome = true ∨ e1.isSome = true) :
    ((findOrCreateNode b e1 c t ts1).1
        = (findOrCreateNode (findOrCreateNode b e1 c t ts1).2 e2 c t ts2).1) ∧
    (findOrCreateNode b e1 c t ts1).1.isSome = true ∧
    (findOrCreateNode (findOrCreateNode b e1 c t ts1).2 e2 c t ts2).2.graph.nodes.length
      = b.graph.nodes.length + (if (getNodeByContent b c).isSome then 1 else 0)
        - (if (getNodeByContent b c).isSome then 1 else 0)
        + (if (getNodeByContent b c).isSome then 0 else 1) := by
  cases hc : getNodeByContent b c with
  | some nid =>
    have h1 : findOrCreateNode b e1 c t ts1 = (some nid, b) := by
      rw [findOrCreateNode, hc]
    rw [h1]
    have h2 : findOrCreateNode b e2 c t ts2 = (some nid, b) := by
      rw [findOrCreateNode, hc]
    rw [h2]
    simp
  | none =>
    have he1 : e1.isSome = true := by
      cases h with
      | inl hh => rw [hc] at hh; cases hh
      | inr hh => exact hh
    obtain ⟨v, hv⟩ := Option.isSome_iff_exists.mp he1
    subst hv
    have h1 : findOrCreateNode b (some v) c t ts1 = addNode b (some v) c t ts1 := by
      rw [findOrCreateNode, hc]
    have hfind : b.graph.nodes.find? (fun p => p.2.content == c) = none := by
      cases hf : b.graph.nodes.find? (fun p => p.2.content == c) with
      | none => rfl
      | some q =>
        rw [getNodeByContent, hf] at hc
        cases hc
    have hgnodes : (addNode b (some v) c t ts1).2.graph.nodes
        = b.graph.nodes ++ [(b.next, ⟨c, t, ts1⟩)] := by
      show (b.graph.addNode b.next ⟨c, t, ts1⟩).nodes = _
      rw [Graph.addNode, if_neg]
      rw [Graph.hasNode] at hfresh
      simp [hfresh]
    have hfound : getNodeByContent (addNode b (some v) c t ts1).2 c = some b.next := by
      rw [getNodeByContent, hgnodes, find?_append_none _ _ _ hfind]
      rw [List.find?_cons_of_pos _ (by simp)]
      rfl
    have h2 : findOrCreateNode (addNode b (some v) c t ts1).2 e2 c t ts2
        = (some b.next, (addNode b (some v) c t ts1).2) := by
      rw [findOrCreateNode, hfound]
    rw [h1, h2]
    refine ⟨rfl, rfl, ?_⟩
    rw [hgnodes]
    simp

theorem find_or_create_idempotent_witness :
    ((findOrCreateNode emptyBrain (some [1]) "c" "T" "s0").1
        = (findOrCreateNode (findOrCreateNode emptyBrain (some [1]) "c" "T" "s0").2
            (some [2]) "c" "T" "s1").1) ∧
    (findOrCreateNode (findOrCreateNode emptyBrain (some [1]) "c" "T" "s0").2
        (some [2]) "c" "T" "s1").2.graph.nodes.length = 1 := by
  have := find_or_create_idempotent emptyBrain (some [1]) (some [2]) "c" "T" "s0" "s1"
    (by decide) (Or.inr (by decide))
  exact ⟨this.1, by simpa using this.2.2⟩

/-- Claim C4: `add_edge(s, t, r)` with either endpoint absent leaves the whole
store unchanged (the method only logs a warning; being a plain
conditional it raises no exception), and with both endpoints present it
inserts the labelled edge. -/
theorem addEdge_missing_endpoint_noop (b : Brain) (s t : Nat) (r : String) :
    ((b.graph.hasNode s = false ∨ b.graph.hasNode t = false) → addEdgeB b s t r = b) ∧
    (b.graph.hasNode s = true → b.graph.hasNode t = true →
      (s, t, r) ∈ (addEdgeB b s t r).graph.edges) := by
  constructor
  · intro h
    rw [addEdgeB, if_neg]
    intro hcond
    cases h with
    | inl hh => rw [hh] at hcond; cases hcond
    | inr hh => rw [hh, Bool.and_false] at hcond; cases hcond
  · intro hs ht
    rw [addEdgeB, if_pos (by rw [hs, ht]; rfl)]
    show (s, t, r) ∈ (b.graph.addEdge s t r).edges
    rw [Graph.addEdge]
    split
    · next hex =>
      obtain ⟨e, he, hcond⟩ := List.any_eq_true.mp hex
      exact List.mem_map.mpr ⟨e, he, by rw [if_pos hcond]⟩
    · exact List.mem_append_right _ (by simp)

theorem addEdge_missing_endpoint_noop_witness :
    addEdgeB twoNodeBrain 5 0 "R" = twoNodeBrain ∧
    (0, 1, "R") ∈ (addEdgeB twoNodeBrain 0 1 "R").graph.edges :=
  ⟨(addEdge_missing_endpoint_noop twoNodeBrain 5 0 "R").1 (Or.inl (by decide)),
   (addEdge_missing_endpoint_noop twoNodeBrain 0 1 "R").2 (by decide) (by decide)⟩

/-- Claim C7: saving a store with contiguous ids and then loading it yields the
same N nodes (ids and data), the same number M of edges, node ids
normalized to the contiguous range `0, ..., N-1`, and `next_node_id`
recomputed as `1 + max(ids) = N` (the `isEmpty` branch gives `0` for an
empty store, which the final equation also covers since `N = 0` there). -/
theorem save_load_roundtrip (b : Brain) (d : Disk) (embed : String → Option Vec)
    (hcontig : b.graph.nodes.map Prod.fst = List.range b.graph.nodes.length) :
    (loadBrain embed (saveBrain true true b d)).graph.nodes = b.graph.nodes ∧
    (loadBrain embed (saveBrain true true b d)).graph.edges.length = b.graph.edges.length ∧
    (loadBrain embed (saveBrain true true b d)).graph.nodes.map Prod.fst
        = List.range b.graph.nodes.length ∧
    (loadBrain embed (saveBrain true true b d)).next = b.graph.nodes.length := by
  have hrel : (Graph.relabel b.graph).nodes = b.graph.nodes := relabel_nodes_of_contig hcontig
  refine ⟨?_, ?_, ?_, ?_⟩
  · exact hrel
  · exact relabel_edges_length b.graph
  · rw [show (loadBrain embed (saveBrain true true b d)).graph.nodes
        = (Graph.relabel b.graph).nodes from rfl, hrel, hcontig]
  · show (if (Graph.relabel b.graph).nodes.isEmpty then 0
        else ((Graph.relabel b.graph).nodes.map Prod.fst).foldl Nat.max 0 + 1)
      = b.graph.nodes.length
    rw [hrel, hcontig]
    cases hL : b.graph.nodes with
    | nil => rfl
    | cons p rest =>
      simp only [List.isEmpty_cons, Bool.false_eq_true, if_false, List.length_cons,
        foldl_max_range]

/-- A two-node store with one edge, for instantiating the round-trip. -/
def twoNodeOneEdgeBrain : Brain := addEdgeB twoNodeBrain 0 1 "MENTIONS"

theorem save_load_roundtrip_witness :
    (loadBrain (fun _ => none) (saveBrain true true twoNodeOneEdgeBrain ⟨none, none⟩)).graph.nodes
        = twoNodeOneEdgeBrain.graph.nodes ∧
    (loadBrain (fun _ => none) (saveBrain true true twoNodeOneEdgeBrain ⟨none, none⟩)).next
        = twoNodeOneEdgeBrain.graph.nodes.length :=
  ⟨(save_load_roundtrip twoNodeOneEdgeBrain ⟨none, none⟩ (fun _ => none) (by decide)).1,
   (save_load_roundtrip twoNodeOneEdgeBrain ⟨none, none⟩ (fun _ => none) (by decide)).2.2.2⟩

theorem map_congr_mem {α β : Type} (l : List α) (f g : α → β)
    (h : ∀ a ∈ l, f a = g a) : l.map f = l.map g := by
  induction l with
  | nil => rfl
  | cons a rest ih =>
    simp only [List.map_cons]
    rw [h a (by simp), ih (fun x hx => h x (by simp [hx]))]

/-- The ordered endpoint pairs of a graph's edge list carry no duplicate:
at most one directed edge per `(source, target)` pair. -/
def edgePairsNodup (g : Graph) : Prop :=
  (g.edges.map (fun e => (e.1, e.2.1))).Nodup

theorem addEdge_pairs (g : Graph) (s t : Nat) (r : String) :
    ((g.addEdge s t r).edges.map (fun e => (e.1, e.2.1)))
      = if g.edges.any (fun e => e.1 == s && e.2.1 == t)
        then g.edges.map (fun e => (e.1, e.2.1))
        else g.edges.map (fun e => (e.1, e.2.1)) ++ [(s, t)] := by
  cases hex : g.edges.any (fun e => e.1 == s && e.2.1 == t) with
  | true =>
    rw [Graph.addEdge, if_pos hex, if_pos rfl]
    rw [List.map_map]
    apply map_congr_mem
    intro e _
    simp only [Function.comp]
    by_cases hc : (e.1 == s && e.2.1 == t) = true
    · have hand := (Bool.and_eq_true _ _).mp hc
      have h1 : e.1 = s := eq_of_beq hand.1
      have h2 : e.2.1 = t := eq_of_beq hand.2
      rw [if_pos hc, h1, h2]
    · rw [if_neg hc]
  | false =>
    rw [Graph.addEdge, if_neg (by simp [hex]), if_neg (by simp [hex])]
    rw [List.map_append]
    rfl

theorem addNode_edges (b : Brain) (e : Option Vec) (c t ts : String) :
    (addNode b e c t ts).2.graph.edges = b.graph.edges := by
  cases e with
  | none => rfl
  | some v =>
    show (b.graph.addNode b.next ⟨c, t, ts⟩).edges = b.graph.edges
    rw [Graph.addNode]
    split <;> rfl

/-- Claim C10: a `DiGraph` holds at most one directed edge per ordered pair.
First part: `add_edge(s, t, r2)` over an existing `(s, t, r1)` edge keeps
the edge count, rewrites the label to `r2`, and removes the old label.
Second part: `add_edge`, `add_node` and `find_or_create_node` all
preserve the at-most-one-edge-per-ordered-pair invariant. -/
theorem addEdge_replaces_label_pair_invariant (b : Brain) (s t : Nat) (r1 r2 : String) :
    ((s, t, r1) ∈ b.graph.edges → b.graph.hasNode s = true → b.graph.hasNode t = true →
      (addEdgeB b s t r2).graph.edges.length = b.graph.edges.length ∧
      (s, t, r2) ∈ (addEdgeB b s t r2).graph.edges ∧
      (r1 ≠ r2 → (s, t, r1) ∉ (addEdgeB b s t r2).graph.edges)) ∧
    (edgePairsNodup b.graph →
      edgePairsNodup (addEdgeB b s t r2).graph ∧
      (∀ e c ty ts, edgePairsNodup ((addNode b e c ty ts).2).graph) ∧
      (∀ e c ty ts, edgePairsNodup ((findOrCreateNode b e c ty ts).2).graph)) := by
  constructor
  · intro hmem hs ht
    have hex : b.graph.edges.any (fun e => e.1 == s && e.2.1 == t) = true :=
      List.any_eq_true.mpr ⟨(s, t, r1), hmem, by simp⟩
    have hB : addEdgeB b s t r2 = { b with graph := b.graph.addEdge s t r2 } := by
      rw [addEdgeB, if_pos (by rw [hs, ht]; rfl)]
    have hE : (b.graph.addEdge s t r2).edges
        = b.graph.edges.map (fun e => if e.1 == s && e.2.1 == t then (s, t, r2) else e) := by
      rw [Graph.addEdge, if_pos hex]
    refine ⟨?_, ?_, ?_⟩
    · rw [hB]
      show (b.graph.addEdge s t r2).edges.length = b.graph.edges.length
      rw [hE, List.length_map]
    · rw [hB]
      show (s, t, r2) ∈ (b.graph.addEdge s t r2).edges
      rw [hE]
      exact List.mem_map.mpr ⟨(s, t, r1), hmem, by simp⟩
    · intro hne hcontra
      rw [hB] at hcontra
      have hcontra' : (s, t, r1) ∈ (b.graph.addEdge s t r2).edges := hcontra
      rw [hE] at hcontra'
      obtain ⟨e, _, heq⟩ := List.mem_map.mp hcontra'
      by_cases hc : (e.1 == s && e.2.1 == t) = true
      · rw [if_pos hc] at heq
        exact hne (by injection heq with _ h2; injection h2 with _ h3; exact h3.symm)
      · rw [if_neg hc] at heq
        apply hc
        rw [heq]
        simp
  · intro hnd
    refine ⟨?_, ?_, ?_⟩
    · rw [addEdgeB]
      split
      · show edgePairsNodup (b.graph.addEdge s t r2)
        rw [edgePairsNodup, addEdge_pairs]
        cases hex : b.graph.edges.any (fun e => e.1 == s && e.2.1 == t) with
        | true => simpa using hnd
        | false =>
          simp only [Bool.false_eq_true, if_false]
          rw [List.nodup_append]
          refine ⟨hnd, by simp, ?_⟩
          intro x hx hx'
          have hxst : x = (s, t) := by simpa using hx'
          obtain ⟨e, he, hpe⟩ := List.mem_map.mp hx
          rw [hxst] at hpe
          have : b.graph.edges.any (fun e => e.1 == s && e.2.1 == t) = true := by
            refine List.any_eq_true.mpr ⟨e, he, ?_⟩
            have h1 : e.1 = s := congrArg Prod.fst hpe
            have h2 : e.2.1 = t := congrArg Prod.snd hpe
            simp [h1, h2]
          rw [hex] at this
          cases this
      · exact hnd
    · intro e c ty ts
      rw [edgePairsNodup, addNode_edges]
      exact hnd
    · intro e c ty ts
      rw [findOrCreateNode]
      cases getNodeByContent b c with
      | some nid => exact hnd
      | none =>
        rw [edgePairsNodup, addNode_edges]
        exact hnd

theorem addEdge_replaces_label_pair_invariant_witness :
    (addEdgeB twoNodeOneEdgeBrain 0 1 "LIKES").graph.edges.length
        = twoNodeOneEdgeBrain.graph.edges.length ∧
    (0, 1, "LIKES") ∈ (addEdgeB twoNodeOneEdgeBrain 0 1 "LIKES").graph.edges ∧
    (0, 1, "MENTIONS") ∉ (addEdgeB twoNodeOneEdgeBrain 0 1 "LIKES").graph.edges ∧
    edgePairsNodup (addEdgeB twoNodeOneEdgeBrain 0 1 "LIKES").graph := by
  have h := addEdge_replaces_label_pair_invariant twoNodeOneEdgeBrain 0 1 "MENTIONS" "LIKES"
  have h1 := h.1 (by decide) (by decide) (by decide)
  have h2 := h.2 (by unfold edgePairsNodup; decide)
  exact ⟨h1.1, h1.2.1, h1.2.2 (by decide), h2.1⟩

theorem insertByKey_length {α : Type} (key : α → Nat) (x : α) :
    ∀ l : List α, (insertByKey key x l).length = l.length + 1 := by
  intro l
  induction l with
  | nil => rfl
  | cons y ys ih =>
    rw [insertByKey]
    split
    · rfl
    · simp only [List.length_cons, ih]

theorem sortByKey_length {α : Type} (key : α → Nat) :
    ∀ l : List α, (sortByKey key l).length = l.length := by
  intro l
  induction l with
  | nil => rfl
  | cons x xs ih =>
    rw [sortByKey, insertByKey_length, ih]
    rfl

theorem insertByKey_perm {α : Type} (key : α → Nat) (x : α) :
    ∀ l : List α, (insertByKey key x l).Perm (x :: l) := by
  intro l
  induction l with
  | nil => exact List.Perm.refl _
  | cons y ys ih =>
    rw [insertByKey]
    split
    · exact List.Perm.refl _
    · exact (List.Perm.cons y ih).trans (List.Perm.swap x y ys)

theorem sortByKey_perm {α : Type} (key : α → Nat) :
    ∀ l : List α, (sortByKey key l).Perm l := by
  intro l
  induction l with
  | nil => exact List.Perm.refl _
  | cons x xs ih =>
    exact (insertByKey_perm key x (sortByKey key xs)).trans (List.Perm.cons x ih)

theorem faissSearch_length (d : Vec → Nat) (idx : Index) (k : Nat) :
    (faissSearch d idx k).length = k := by
  rw [faissSearch]
  simp only [List.length_append, List.length_map, List.length_take,
    List.length_replicate, sortByKey_length]
  omega

theorem hasNodeI_neg (g : Graph) : g.hasNodeI (-1) = false := rfl

theorem dictInsert_length {β : Type} (m : List (Nat × β)) (k : Nat) (v : β) :
    (dictInsert m k v).length ≤ m.length + 1 := by
  rw [dictInsert]
  split
  · simp
  · simp

theorem dictInsert_fresh {β : Type} (m : List (Nat × β)) (k : Nat) (v : β)
    (h : m.any (fun p => p.1 == k) = false) : dictInsert m k v = m ++ [(k, v)] := by
  rw [dictInsert, if_neg (by simp [h])]

theorem dictInsert_mem {β : Type} (m : List (Nat × β)) (k : Nat) (v : β) :
    ∀ p ∈ dictInsert m k v, p = (k, v) ∨ p ∈ m := by
  rw [dictInsert]
  split
  · intro p hp
    obtain ⟨q, hq, heq⟩ := List.mem_map.mp hp
    by_cases hc : (q.1 == k) = true
    · rw [if_pos hc] at heq
      exact Or.inl heq.symm
    · rw [if_neg hc] at heq
      exact Or.inr (heq ▸ hq)
  · intro p hp
    cases List.mem_append.mp hp with
    | inl h => exact Or.inr h
    | inr h => exact Or.inl (by simpa using h)

theorem searchFold_length (g : Graph) :
    ∀ (ids : List Int) (res : List (Nat × SeedResult)),
      (ids.foldl (fun res i =>
          if g.hasNodeI i then dictInsert res i.toNat (seedResultOf g i.toNat) else res)
        res).length ≤ res.length + ids.length := by
  intro ids
  induction ids with
  | nil => intro res; simp
  | cons i rest ih =>
    intro res
    rw [List.foldl_cons]
    refine Nat.le_trans (ih _) ?_
    split
    · have := dictInsert_length res i.toNat (seedResultOf g i.toNat)
      simp only [List.length_cons]
      omega
    · simp only [List.length_cons]
      omega

theorem searchFold_mem (g : Graph) :
    ∀ (ids : List Int) (res : List (Nat × SeedResult)),
      (∀ p ∈ res, g.hasNode p.1 = true ∧ p.2 = seedResultOf g p.1) →
      ∀ p ∈ ids.foldl (fun res i =>
            if g.hasNodeI i then dictInsert res i.toNat (seedResultOf g i.toNat) else res)
          res,
        g.hasNode p.1 = true ∧ p.2 = seedResultOf g p.1 := by
  intro ids
  induction ids with
  | nil => intro res h; exact h
  | cons i rest ih =>
    intro res h
    rw [List.foldl_cons]
    apply ih
    split
    · next hv =>
      intro p hp
      cases dictInsert_mem res i.toNat (seedResultOf g i.toNat) p hp with
      | inl he =>
        have hN : g.hasNode i.toNat = true := by
          rw [Graph.hasNodeI, Bool.and_eq_true] at hv
          exact hv.2
        rw [he]
        exact ⟨hN, rfl⟩
      | inr hm => exact h p hm
    · exact h

theorem searchFold_eq (g : Graph) :
    ∀ (ids : List Int) (res : List (Nat × SeedResult)),
      ((ids.filter (fun i => g.hasNodeI i)).map Int.toNat).Nodup →
      (∀ i ∈ ids.filter (fun i => g.hasNodeI i), res.any (fun p => p.1 == i.toNat) = false) →
      ids.foldl (fun res i =>
          if g.hasNodeI i then dictInsert res i.toNat (seedResultOf g i.toNat) else res)
        res
        = res ++ (ids.filter (fun i => g.hasNodeI i)).map
            (fun i => (i.toNat, seedResultOf g i.toNat)) := by
  intro ids
  induction ids with
  | nil => intro res _ _; simp
  | cons i rest ih =>
    intro res hnd hres
    by_cases hv : g.hasNodeI i = true
    · rw [List.filter_cons_of_pos hv] at hnd hres ⊢
      rw [List.map_cons, List.nodup_cons] at hnd
      have hresi : res.any (fun p => p.1 == i.toNat) = false := hres i (by simp)
      rw [List.foldl_cons, if_pos hv, dictInsert_fresh res i.toNat _ hresi]
      rw [ih (res ++ [(i.toNat, seedResultOf g i.toNat)]) hnd.2 ?_]
      · rw [List.append_assoc]
        rfl
      · intro j hj
        rw [List.any_append]
        have h1 : res.any (fun p => p.1 == j.toNat) = false :=
          hres j (by simp [hj])
        have h2 : i.toNat ≠ j.toNat := by
          intro hcontra
          exact hnd.1 (hcontra ▸ List.mem_map_of_mem Int.toNat hj)
        simp [h1, h2]
    · have hv' : g.hasNodeI i = false := by
        cases hvv : g.hasNodeI i with
        | true => exact absurd hvv hv
        | false => rfl
      rw [List.filter_cons_of_neg (by simp [hv'])] at hnd hres ⊢
      rw [List.foldl_cons, if_neg (by simp [hv'])]
      exact ih res hnd hres

theorem filter_replicate_neg (g : Graph) :
    ∀ n : Nat, (List.replicate n (-1 : Int)).filter (fun i => g.hasNodeI i) = [] := by
  intro n
  induction n with
  | zero => rfl
  | succ m ih =>
    rw [List.replicate_succ, List.filter_cons_of_neg (by simp [hasNodeI_neg])]
    exact ih

theorem faiss_filter_nodup (d : Vec → Nat) (g : Graph) (idx : Index) (k : Nat)
    (h : (idx.map Prod.fst).Nodup) :
    (((faissSearch d idx k).filter (fun i => g.hasNodeI i)).map Int.toNat).Nodup := by
  have hperm : ((sortByKey (fun e => d e.2) idx).map Prod.fst).Perm (idx.map Prod.fst) :=
    (sortByKey_perm (fun e => d e.2) idx).map Prod.fst
  have hnd1 : ((sortByKey (fun e => d e.2) idx).map Prod.fst).Nodup :=
    hperm.nodup_iff.mpr h
  rw [faissSearch, List.filter_append, filter_replicate_neg, List.append_nil]
  have hmm : ((sortByKey (fun e => d e.2) idx).take k).map (fun e => Int.ofNat e.1)
      = (((sortByKey (fun e => d e.2) idx).take k).map Prod.fst).map Int.ofNat := by
    rw [List.map_map]
    rfl
  rw [hmm, List.filter_map, List.map_map]
  have hid : ∀ x ∈ (((sortByKey (fun e => d e.2) idx).take k).map Prod.fst).filter
      ((fun i => g.hasNodeI i) ∘ Int.ofNat),
      (Int.toNat ∘ Int.ofNat) x = id x := by
    intro x _
    simp
  rw [map_congr_mem _ _ _ hid, List.map_id]
  have hsub : List.Sublist
      ((((sortByKey (fun e => d e.2) idx).take k).map Prod.fst).filter
        ((fun i => g.hasNodeI i) ∘ Int.ofNat))
      ((sortByKey (fun e => d e.2) idx).map Prod.fst) := by
    refine List.Sublist.trans (List.filter_sublist _) ?_
    rw [List.map_take]
    exact List.take_sublist _ _
  exact hsub.nodup hnd1

/-- Claim C8: `hybrid_search(q, k)` returns at most `k` seed entries regardless
of store size; every returned entry is keyed by a node id resolving in
the graph (FAISS hits that do not resolve — including the `-1` padding —
are silently skipped); the returned keys preserve the index's reported
similarity order (they are exactly the resolving FAISS labels in order);
and `k` does not bound any seed's neighborhood, which holds one entry per
inbound plus outbound edge of the seed (full fan-out). -/
theorem hybrid_search_seed_cap (d : Vec → Vec → Nat) (b : Brain) (q : Vec) (k : Nat) :
    (hybridSearch d b (some q) k).length ≤ k ∧
    (∀ p ∈ hybridSearch d b (some q) k,
        b.graph.hasNode p.1 = true ∧
        p.2 = seedResultOf b.graph p.1 ∧
        p.2.neighborhood.length
          = (b.graph.preds p.1).length + (b.graph.succs p.1).length) ∧
    ((b.index.map Prod.fst).Nodup →
      (hybridSearch d b (some q) k).map Prod.fst
        = ((faissSearch (d q) b.index k).filter (fun i => b.graph.hasNodeI i)).map
            Int.toNat) := by
  have hred : hybridSearch d b (some q) k
      = if (faissSearch (d q) b.index k).length == 0 then []
        else (faissSearch (d q) b.index k).foldl
          (fun res i => if b.graph.hasNodeI i then
              dictInsert res i.toNat (seedResultOf b.graph i.toNat) else res) [] := rfl
  by_cases hz : ((faissSearch (d q) b.index k).length == 0) = true
  · have hk : (faissSearch (d q) b.index k).length = 0 := by simpa using hz
    have hids : faissSearch (d q) b.index k = [] := List.length_eq_zero.mp hk
    rw [hred, if_pos hz]
    refine ⟨by simp, by simp, ?_⟩
    intro _
    rw [hids]
    rfl
  · rw [hred, if_neg hz]
    refine ⟨?_, ?_, ?_⟩
    · have h1 := searchFold_length b.graph (faissSearch (d q) b.index k) []
      rw [faissSearch_length] at h1
      simpa using h1
    · intro p hp
      have h := searchFold_mem b.graph (faissSearch (d q) b.index k) [] (by simp) p hp
      refine ⟨h.1, h.2, ?_⟩
      rw [h.2]
      show (neighborhoodOf b.graph p.1).length = _
      rw [neighborhoodOf]
      simp
    · intro hnd
      rw [searchFold_eq b.graph _ [] (faiss_filter_nodup _ _ _ _ hnd) (fun i _ => rfl)]
      rw [List.nil_append, List.map_map]
      apply map_congr_mem
      intro i _
      rfl

theorem hybrid_search_seed_cap_witness :
    (hybridSearch dZero twoNodeOneEdgeBrain (some [0]) 1).length ≤ 1 ∧
    twoNodeOneEdgeBrain.graph.hasNode 0 = true ∧
    (hybridSearch dZero twoNodeOneEdgeBrain (some [0]) 1).map Prod.fst
      = ((faissSearch (dZero [0]) twoNodeOneEdgeBrain.index 1).filter
          (fun i => twoNodeOneEdgeBrain.graph.hasNodeI i)).map Int.toNat :=
  ⟨(hybrid_search_seed_cap dZero twoNodeOneEdgeBrain [0] 1).1,
   ((hybrid_search_seed_cap dZero twoNodeOneEdgeBrain [0] 1).2.1
      (0, seedResultOf twoNodeOneEdgeBrain.graph 0) (by decide)).1,
   (hybrid_search_seed_cap dZero twoNodeOneEdgeBrain [0] 1).2.2 (by decide)⟩

/-- Claim C9: `hybrid_search` returns the empty dict both when the query
embedding cannot be obtained and when the store is empty, and the two
results are identical — the caller cannot tell an embedding failure from
an empty result.  Both paths are plain returns, so no error is raised or
signalled. -/
theorem hybrid_search_failure_and_empty_indistinguishable
    (d : Vec → Vec → Nat) (b : Brain) (q : Vec) (k : Nat) :
    hybridSearch d b none k = [] ∧
    hybridSearch d emptyBrain (some q) k = [] ∧
    hybridSearch d b none k = hybridSearch d emptyBrain (some q) k := by
  have h1 : hybridSearch d b none k = [] := rfl
  have h2 : hybridSearch d emptyBrain (some q) k = [] := by
    have hred : hybridSearch d emptyBrain (some q) k
        = if (faissSearch (d q) ([] : Index) k).length == 0 then []
          else (faissSearch (d q) ([] : Index) k).foldl
            (fun res i => if Graph.empty.hasNodeI i then
                dictInsert res i.toNat (seedResultOf Graph.empty i.toNat) else res) [] := rfl
    by_cases hz : ((faissSearch (d q) ([] : Index) k).length == 0) = true
    · rw [hred, if_pos hz]
    · rw [hred, if_neg hz]
      have hids : faissSearch (d q) ([] : Index) k = List.replicate k (-1) := by
        rw [faissSearch]
        simp [sortByKey]
      rw [hids]
      have hfold : ∀ (n : Nat) (res : List (Nat × SeedResult)),
          (List.replicate n (-1 : Int)).foldl
            (fun res i => if Graph.empty.hasNodeI i then
                dictInsert res i.toNat (seedResultOf Graph.empty i.toNat) else res) res
            = res := by
        intro n
        induction n with
        | zero => intro res; rfl
        | succ m ih =>
          intro res
          rw [List.replicate_succ, List.foldl_cons, if_neg (by simp [hasNodeI_neg])]
          exact ih res
      exact hfold k []
  exact ⟨h1, h2, by rw [h1, h2]⟩

/-- Claim C5: during EXECUTING the plan is consumed strictly front-to-back, one
step per executor invocation — `execution_node` pops exactly the head and
appends exactly one result — so a 2-step plan `[A, B]` leaves the history
extended by `[result(A), result(B)]` in that order; and `should_continue`
routes to the responder exactly when the plan is empty. -/
theorem executor_front_to_back (runTool : PlanStep → String) (A B : PlanStep)
    (h : List ToolMsg) :
    (execRounds runTool 2 ⟨[A, B], h⟩
        = ⟨[], h ++ [⟨runTool A, A.tool⟩, ⟨runTool B, B.tool⟩]⟩) ∧
    (∀ (step : PlanStep) (rest : List PlanStep) (hist : List ToolMsg),
      executionNode runTool ⟨step :: rest, hist⟩
        = ⟨rest, hist ++ [⟨runTool step, step.tool⟩]⟩) ∧
    (∀ st : ExecState, shouldContinue st = Route.respond ↔ st.plan = []) := by
  refine ⟨?_, fun step rest hist => rfl, ?_⟩
  · simp [execRounds, shouldContinue, executionNode]
  · intro st
    obtain ⟨plan, hist⟩ := st
    cases plan with
    | nil => exact ⟨fun _ => rfl, fun _ => rfl⟩
    | cons a rest =>
      constructor
      · intro hresp
        simp [shouldContinue] at hresp
      · intro hcontra
        cases hcontra

theorem executor_front_to_back_witness :
    execRounds (fun s => s.arg) 2 ⟨[⟨"ta", "x"⟩, ⟨"tb", "y"⟩], []⟩
      = ⟨[], [⟨"x", "ta"⟩, ⟨"y", "tb"⟩]⟩ ∧
    (shouldContinue ⟨[], []⟩ = Route.respond ↔ ([] : List PlanStep) = []) :=
  ⟨(executor_front_to_back (fun s => s.arg) ⟨"ta", "x"⟩ ⟨"tb", "y"⟩ []).1,
   (executor_front_to_back (fun s => s.arg) ⟨"ta", "x"⟩ ⟨"tb", "y"⟩ []).2.2 ⟨[], []⟩⟩

/-- Claim C6, refuted as stated.  The `qloo_enrichment` registry entry does not
convert lookup failures into an apology string: it raises
`AttributeError` outright (AuraAgent defines no `qloo_enrichment` method
for `supervisor.py` to call), and the underlying enrichment helper
swallows a raised entity-search request silently, returning
`None` — no apology text is ever produced on the Qloo path. -/
theorem qloo_enrichment_no_apology :
    qlooEnrichmentTool "Dune" "movie" = ToolOutcome.exn "AttributeError" ∧
    (enrichNodeWithQloo (fun _ => some [1]) "t" (some "KEY") (Except.error ())
        (fun _ => Except.error ()) twoNodeBrain 0).2 = none := by
  exact ⟨rfl, rfl⟩

/-- Claim C6, amended: lookup failures never unwind into the state machine, but
only the web-search entry produces an apology string.  `external_search`
converts a raised lookup into the apology literal; the Qloo enrichment
helper catches a raised entity-search request (returning the store
unchanged with no message) and likewise absorbs raised insights requests
for every output type. -/
theorem lookup_failures_contained (query msg ts : String) (embed : String → Option Vec)
    (key : Option String) (insights : String → Except Unit (List (Option String)))
    (b : Brain) (nid : Nat) :
    externalSearch query (WikiOutcome.raised msg) = searchApology ∧
    enrichNodeWithQloo embed ts key (Except.error ()) insights b nid = (b, none) ∧
    (∀ searchResp : Except Unit (List (Option String)),
      (∀ ot, insights ot = Except.error ()) →
      enrichNodeWithQloo embed ts key searchResp insights b nid = (b, none)) := by
  refine ⟨rfl, ?_, ?_⟩
  · cases key with
    | none => rfl
    | some kk => rfl
  · intro sr hins
    rw [enrichNodeWithQloo]
    cases getQlooEntityId key sr with
    | none => rfl
    | some qid =>
      simp [qlooOutputTypes, hins]

theorem lookup_failures_contained_witness :
    externalSearch "Dune" (WikiOutcome.raised "timeout") = searchApology ∧
    enrichNodeWithQloo (fun _ => none) "t" (some "KEY") (Except.ok [some "id1"])
        (fun _ => Except.error ()) twoNodeBrain 0 = (twoNodeBrain, none) :=
  ⟨(lookup_failures_contained "Dune" "timeout" "t" (fun _ => none) (some "KEY")
      (fun _ => Except.error ()) twoNodeBrain 0).1,
   (lookup_failures_contained "Dune" "timeout" "t" (fun _ => none) (some "KEY")
      (fun _ => Except.error ()) twoNodeBrain 0).2.2 (Except.ok [some "id1"])
      (fun _ => rfl)⟩
